import Mathlib

/-!
# Verification of the daemon edit-history and style-resolution engines

A shallow embedding, in Lean 4, of the original logic of this repository
(a fork of a browser mapping library extended with a "daemon" layer):

* `src/ol/daemon/edits/Edits.js` — the undo/redo edit log (`Edits` class);
* `src/ol/daemon/edits/Edit.js` — single edit records with before/after
  property snapshots (`Edit` class);
* `src/ol/daemon/filters/index.js` — attribute-filter evaluation
  (`testFeature`);
* `src/ol/layer/Vector.js` — style and label resolution
  (`__styleFunction`, `__getStyleForFeature`, `__getLabelForResolution`);
* `src/ol/daemon/layers/fields/Domain.js` — coded-value domains
  (`Domain.getValue`).

JavaScript numbers are modelled as exact rationals (`ℚ`); the numeric
value `NaN`, which arises from coercions such as `Number(undefined)`,
is modelled as `Option ℚ` with `none` for `NaN`.  A JavaScript runtime
exception (e.g. calling `.split` on a non-string) is modelled with
`Except Unit`.  Definitions follow the JavaScript source line by line;
deviations are noted in comments.
-/

namespace Daemon

/-- The types of edit operation (`EnumEditType` in `Edit.js`). -/
inductive EnumEditType
  | create
  | update
  | delete
deriving DecidableEq, Repr

/-- A single edit record as seen by the history (`Edits.js` never reads
any field of an `Edit`, but the spec-side description of `process`
deduplicates by `fid`, so the feature id and edit type are carried). -/
structure EditE where
  fid : String
  editType : EnumEditType
deriving DecidableEq, Repr

/-- The state of an `Edits` history (`Edits.js` constructor): the list
of operations (`this._edits`, each operation a list of `Edit`) and the
cursor (`this._editIndex`).  The cursor is a JS number that can be
`-1`, hence `Int`.  The payload type of single edits is a parameter
because `Edits.js` treats them opaquely. -/
structure EditsState (α : Type) where
  edits : List (List α)
  editIndex : Int
deriving DecidableEq, Repr

namespace EditsState

/-- `new Edits()`: empty operation list, cursor `-1`. -/
def initial : EditsState α := { edits := [], editIndex := -1 }

/-- `get canUndo() { return this._editIndex > -1; }` -/
def canUndo (s : EditsState α) : Bool := s.editIndex > -1

/-- `get canRedo() { return this._editIndex < this._edits.length - 1; }` -/
def canRedo (s : EditsState α) : Bool := s.editIndex < (s.edits.length : Int) - 1

/-- The argument of `Edits.add`: a single `Edit` or an array of `Edit`
(`Array.isArray(edit) ? edit : [edit]`). -/
inductive EditArg (α : Type)
  | single (e : α)
  | group (es : List α)

/-- `const newEdit = Array.isArray(edit) ? edit : [edit];` -/
def wrapEdit : EditArg α → List α
  | .single e => [e]
  | .group es => es

/-- `Array.prototype.splice(i, 0, x)`: insert `x` at index `i`
(for `i ≤ l.length`; JS clamps larger `i` to the length, which
`List.take` also does). -/
def jsSpliceInsert (l : List β) (i : Nat) (x : β) : List β :=
  l.take i ++ [x] ++ l.drop i

/-- Assigning `arr.length = n` with `n ≤ arr.length` truncates the
array to its first `n` elements (the only use in `Edits.add` is a
truncation; the array-extension case cannot occur there). -/
def jsSetLength (l : List β) (n : Nat) : List β := l.take n

/-- `Edits.add`: increments `_editIndex`, wraps the argument, splices
it in at the new index, then truncates `_edits` to `_editIndex + 1`
elements.  The new index is `≥ 0` for every state reachable through
the class API, so `Int.toNat` is exact there. -/
def add (s : EditsState α) (edit : EditArg α) : EditsState α :=
  let newIndex : Int := s.editIndex + 1
  let newEdit : List α := wrapEdit edit
  { editIndex := newIndex
    edits := jsSetLength (jsSpliceInsert s.edits newIndex.toNat newEdit) (newIndex.toNat + 1) }

/-- `Edits.undo`: if `canUndo`, return the operation at `_editIndex`
(JS indexing out of range yields `undefined`, hence `Option`) and
decrement the cursor; otherwise return `undefined` and leave the state
unchanged. -/
def undo (s : EditsState α) : Option (List α) × EditsState α :=
  if s.canUndo then
    (s.edits.get? s.editIndex.toNat, { s with editIndex := s.editIndex - 1 })
  else
    (none, s)

/-- `Edits.redo`: if `canRedo`, increment the cursor and return the
operation at the new `_editIndex`; otherwise return `undefined` and
leave the state unchanged. -/
def redo (s : EditsState α) : Option (List α) × EditsState α :=
  if s.canRedo then
    ((s.edits.get? (s.editIndex + 1).toNat, { s with editIndex := s.editIndex + 1 }))
  else
    (none, s)

/-- `Edits.process`: the value the returned promise resolves with.
The body is `return new Promise((yes, no) => { yes(this._edits); });`
— it resolves with the whole `_edits` list (the slicing and per-fid
deduplication in the method is commented out, and a `debugger;`
statement remains). -/
def process (s : EditsState α) : List (List α) := s.edits

/-- The states of an `Edits` object reachable through its public API:
the freshly constructed state, closed under `add`, `undo` and `redo`. -/
inductive Reachable : EditsState α → Prop
  | init : Reachable initial
  | add (s : EditsState α) (e : EditArg α) : Reachable s → Reachable (s.add e)
  | undo (s : EditsState α) : Reachable s → Reachable (s.undo).2
  | redo (s : EditsState α) : Reachable s → Reachable (s.redo).2

end EditsState

/-- Keep only the last edit per feature id, preserving the order of the
surviving (last) occurrences.  Written from the spec's words for
`process` ("deduplicate multiple edits to the same feature id within
the flushed range, keeping only the last edit per feature id"). -/
def dedupKeepLast (edits : List EditE) : List EditE :=
  edits.foldl (fun acc e => acc.filter (fun x => x.fid ≠ e.fid) ++ [e]) []

/-- Written from the spec's words: the set `process` is required to
resolve with — the operations at indices `0 … editIndex` flattened,
deduplicated per feature id keeping the last edit. -/
def spec_process_flush (s : EditsState EditE) : List EditE :=
  dedupKeepLast ((s.edits.take (s.editIndex + 1).toNat).flatten)

namespace EditsState

theorem jsSetLength_spliceInsert (l : List β) (i : Nat) (x : β) (h : i ≤ l.length) :
    jsSetLength (jsSpliceInsert l i x) (i + 1) = l.take i ++ [x] := by
  unfold jsSetLength jsSpliceInsert
  have hl : (l.take i).length = i := by
    simp [List.length_take, Nat.min_eq_left h]
  rw [List.append_assoc, List.take_append_eq_append_take, hl, List.take_of_length_le (by omega),
    Nat.add_sub_cancel_left]
  rfl

theorem add_edits_eq (s : EditsState α) (e : EditArg α)
    (h1 : s.editIndex + 1 ≤ (s.edits.length : Int)) :
    (s.add e).edits = s.edits.take (s.editIndex + 1).toNat ++ [wrapEdit e] := by
  have hle : (s.editIndex + 1).toNat ≤ s.edits.length := by omega
  simpa [add] using jsSetLength_spliceInsert s.edits (s.editIndex + 1).toNat (wrapEdit e) hle

/-- The cursor invariant, by induction over the reachable states. -/
theorem reachable_invariant {s : EditsState α} (h : Reachable s) :
    -1 ≤ s.editIndex ∧ s.editIndex < (s.edits.length : Int) := by
  induction h with
  | init => exact ⟨le_refl _, by simp [initial]⟩
  | add s e _ ih =>
      obtain ⟨h0, h1⟩ := ih
      have heq := add_edits_eq s e (by omega)
      have hlen : ((s.add e).edits.length : Int) = (s.editIndex + 1).toNat + 1 := by
        rw [heq]
        have : ((s.editIndex + 1).toNat : Int) ≤ (s.edits.length : Int) := by omega
        simp [List.length_take]
        omega
      have hidx : (s.add e).editIndex = s.editIndex + 1 := rfl
      constructor
      · omega
      · rw [hidx, hlen]; omega
  | undo s _ ih =>
      obtain ⟨h0, h1⟩ := ih
      by_cases hc : s.canUndo
      · have hgt : s.editIndex > -1 := by simpa [canUndo] using hc
        simp only [undo, hc, if_true]
        exact ⟨by omega, by omega⟩
      · simp only [undo, hc, if_false]
        exact ⟨h0, h1⟩
  | redo s _ ih =>
      obtain ⟨h0, h1⟩ := ih
      by_cases hc : s.canRedo
      · have hlt : s.editIndex < (s.edits.length : Int) - 1 := by simpa [canRedo] using hc
        simp only [redo, hc, if_true]
        exact ⟨by omega, by omega⟩
      · simp only [redo, hc, if_false]
        exact ⟨h0, h1⟩

end EditsState

/-- A concrete history used as a sample reachable state: two adds
(features `a` and `b`), then one `undo`, leaving `editIndex = 0`. -/
def sampleHistory : EditsState EditE :=
  (((EditsState.initial).add (.single ⟨"a", .create⟩)).add (.single ⟨"b", .update⟩)).undo.2

theorem sampleHistory_reachable : EditsState.Reachable sampleHistory :=
  .undo _ (.add _ _ (.add _ _ .init))

/-- A concrete history exercising `process`: two `update` edits to the
same feature `f1`, then one `undo`, leaving `editIndex = 0` while two
operations remain recorded. -/
def c1State : EditsState EditE :=
  (((EditsState.initial).add (.single ⟨"f1", .update⟩)).add (.single ⟨"f1", .update⟩)).undo.2

/-- C1: evaluation of the code at the failing input.  With two edits to
feature `f1` recorded and the cursor moved back to `editIndex = 0`,
`process` resolves with the whole operations list — both operations,
including the one at index `1 > editIndex`, and both edits to `f1`
undeduplicated — whereas the claim requires only the operations up to
`editIndex` with a single (last) edit per feature id, here `[f1-edit]`
alone. -/
theorem C1_process_code_eval :
    c1State.editIndex = 0 ∧
    EditsState.process c1State = [[⟨"f1", .update⟩], [⟨"f1", .update⟩]] ∧
    spec_process_flush c1State = [⟨"f1", .update⟩] ∧
    EditsState.process c1State ≠ [[(⟨"f1", .update⟩ : EditE)]] ∧
    ((EditsState.process c1State).flatten.countP (fun e => e.fid == "f1")) = 2 := by
  decide

/-- C2: every state reachable through `add`/`undo`/`redo` from a fresh
`Edits` satisfies the cursor invariant `-1 ≤ editIndex < length(operations)`
(the initial state included, via `Reachable.init`). -/
theorem C2_cursor_invariant (s : EditsState α) (h : EditsState.Reachable s) :
    -1 ≤ s.editIndex ∧ s.editIndex < (s.edits.length : Int) :=
  EditsState.reachable_invariant h

theorem C2_cursor_invariant_witness :
    -1 ≤ sampleHistory.editIndex ∧ sampleHistory.editIndex < (sampleHistory.edits.length : Int) :=
  C2_cursor_invariant sampleHistory sampleHistory_reachable

/-- C3: from any reachable state, `add` advances the cursor by one,
inserts the wrapped operation at the new cursor position and truncates
the list there (discarding every operation of larger index); a single
`Edit` is wrapped as a one-element operation; afterwards
`editIndex = length - 1` and `canRedo` is `false`. -/
theorem C3_add_inserts_and_trims (s : EditsState α) (h : EditsState.Reachable s)
    (e : EditsState.EditArg α) :
    (s.add e).editIndex = s.editIndex + 1 ∧
    (s.add e).edits = s.edits.take (s.editIndex + 1).toNat ++ [EditsState.wrapEdit e] ∧
    (∀ x : α, EditsState.wrapEdit (EditsState.EditArg.single x) = [x]) ∧
    (s.add e).editIndex = ((s.add e).edits.length : Int) - 1 ∧
    (s.add e).canRedo = false := by
  obtain ⟨h0, h1⟩ := EditsState.reachable_invariant h
  have heq := EditsState.add_edits_eq s e (by omega)
  have hlen : ((s.add e).edits.length : Int) = (s.editIndex + 1).toNat + 1 := by
    rw [heq]
    have : ((s.editIndex + 1).toNat : Int) ≤ (s.edits.length : Int) := by omega
    simp [List.length_take]
    omega
  have hidx : (s.add e).editIndex = s.editIndex + 1 := rfl
  refine ⟨rfl, heq, fun _ => rfl, ?_, ?_⟩
  · rw [hidx, hlen]; omega
  · have hn : ¬ ((s.add e).editIndex < ((s.add e).edits.length : Int) - 1) := by
      rw [hidx, hlen]; omega
    simpa [EditsState.canRedo] using hn

theorem C3_add_inserts_and_trims_witness :
    (sampleHistory.add (.single ⟨"c", .delete⟩)).editIndex = sampleHistory.editIndex + 1 ∧
    (sampleHistory.add (.single ⟨"c", .delete⟩)).edits =
      sampleHistory.edits.take (sampleHistory.editIndex + 1).toNat ++
        [EditsState.wrapEdit (.single ⟨"c", .delete⟩)] ∧
    (∀ x : EditE, EditsState.wrapEdit (EditsState.EditArg.single x) = [x]) ∧
    (sampleHistory.add (.single ⟨"c", .delete⟩)).editIndex =
      (((sampleHistory.add (.single ⟨"c", .delete⟩)).edits.length : Int)) - 1 ∧
    (sampleHistory.add (.single ⟨"c", .delete⟩)).canRedo = false :=
  C3_add_inserts_and_trims sampleHistory sampleHistory_reachable _

/-- C8: on any reachable state, `undo` with `canUndo` false and `redo`
with `canRedo` false return `undefined` and leave the state unchanged;
`undo` with `canUndo` true returns the operation at the old `editIndex`
and decrements the cursor; `redo` with `canRedo` true increments the
cursor and returns the operation at the new `editIndex`. -/
theorem C8_noop_boundaries (s : EditsState α) (h : EditsState.Reachable s) :
    (s.canUndo = false → s.undo = (none, s)) ∧
    (s.canRedo = false → s.redo = (none, s)) ∧
    (s.canUndo = true → ∃ op, s.edits.get? s.editIndex.toNat = some op ∧
        s.undo = (some op, { s with editIndex := s.editIndex - 1 })) ∧
    (s.canRedo = true → ∃ op, s.edits.get? (s.editIndex + 1).toNat = some op ∧
        s.redo = (some op, { s with editIndex := s.editIndex + 1 })) := by
  obtain ⟨h0, h1⟩ := EditsState.reachable_invariant h
  refine ⟨?_, ?_, ?_, ?_⟩
  · intro hc; simp [EditsState.undo, hc]
  · intro hc; simp [EditsState.redo, hc]
  · intro hc
    have hgt : s.editIndex > -1 := by simpa [EditsState.canUndo] using hc
    have hlt : s.editIndex.toNat < s.edits.length := by omega
    exact ⟨s.edits.get ⟨_, hlt⟩, List.get?_eq_get hlt,
      by simp [EditsState.undo, hc, List.get?_eq_get hlt]⟩
  · intro hc
    have hgt : s.editIndex < (s.edits.length : Int) - 1 := by
      simpa [EditsState.canRedo] using hc
    have hlt : (s.editIndex + 1).toNat < s.edits.length := by omega
    exact ⟨s.edits.get ⟨_, hlt⟩, List.get?_eq_get hlt,
      by simp [EditsState.redo, hc, List.get?_eq_get hlt]⟩

theorem C8_noop_boundaries_witness :
    (sampleHistory.canUndo = false → sampleHistory.undo = (none, sampleHistory)) ∧
    (sampleHistory.canRedo = false → sampleHistory.redo = (none, sampleHistory)) ∧
    (sampleHistory.canUndo = true → ∃ op,
        sampleHistory.edits.get? sampleHistory.editIndex.toNat = some op ∧
        sampleHistory.undo = (some op, { sampleHistory with editIndex := sampleHistory.editIndex - 1 })) ∧
    (sampleHistory.canRedo = true → ∃ op,
        sampleHistory.edits.get? (sampleHistory.editIndex + 1).toNat = some op ∧
        sampleHistory.redo = (some op, { sampleHistory with editIndex := sampleHistory.editIndex + 1 })) :=
  C8_noop_boundaries sampleHistory sampleHistory_reachable

/-! ## JavaScript value model

Feature attribute values and filter operands are JavaScript values.
Numbers are exact rationals; `NaN` only arises through coercion and is
represented by `none : Option ℚ`.  Arrays are immutable lists here;
array identity (reference equality) is not modelled — no verified
property depends on it. -/

/-- A primitive JavaScript value (array element).  JS arrays can nest,
but every array the filter code and the verified properties handle is
a flat array of primitives, so array elements are restricted to these. -/
inductive JAtom
  | undef
  | null
  | bool (b : Bool)
  | num (q : ℚ)
  | str (s : String)
deriving DecidableEq, Repr

/-- A JavaScript value as it occurs in property bags and filters. -/
inductive JVal
  | undef
  | null
  | bool (b : Bool)
  | num (q : ℚ)
  | str (s : String)
  | list (l : List JAtom)
deriving DecidableEq, Repr

/-- An array element, viewed as a value. -/
def JAtom.toJVal : JAtom → JVal
  | .undef => .undef
  | .null => .null
  | .bool b => .bool b
  | .num q => .num q
  | .str s => .str s

namespace JVal

/-- JavaScript truthiness: `undefined`, `null`, `false`, `0` and `""`
are falsy; every other value (arrays included) is truthy. -/
def truthy : JVal → Bool
  | undef => false
  | null => false
  | bool b => b
  | num q => !(q == 0)
  | str s => !(s == "")
  | list _ => true

/-- Decimal string-to-number conversion, as performed by JS `Number()`
on a string: optional sign, integer digits, optional fraction; the
empty/whitespace string converts to `0`; anything else is `NaN`
(`none`).  Exotic forms (exponents, hex, `Infinity`) are not needed by
any verified property and are mapped to `NaN`. -/
def strToNum (s : String) : Option ℚ :=
  let t := s.trim
  if t = "" then some 0
  else
    let (sign, digits) :=
      if t.startsWith "-" then ((-1 : ℚ), t.drop 1)
      else if t.startsWith "+" then ((1 : ℚ), t.drop 1) else ((1 : ℚ), t)
    let parts := digits.splitOn "."
    let parseNat (u : String) : Option ℕ :=
      if u.length > 0 ∧ u.all Char.isDigit then some u.toNat! else none
    match parts with
    | [intPart] => (parseNat intPart).map (fun n => sign * n)
    | [intPart, fracPart] =>
        match parseNat intPart, parseNat fracPart with
        | some n, some f =>
            some (sign * ((n : ℚ) + (f : ℚ) / ((10 : ℚ) ^ fracPart.length)))
        | _, _ => none
    | _ => none

/-- String form of a number, as used by JS string coercion.  Integers
render in decimal; non-integer rationals do not occur in any verified
property and get a plain `num/den` rendering. -/
def numToString (q : ℚ) : String :=
  if q.den = 1 then toString q.num else toString q.num ++ "/" ++ toString q.den

/-- JS string coercion of a primitive value (`Array.prototype.join`
renders `undefined` and `null` elements as the empty string, but no
verified property stringifies arrays containing them; elementwise,
non-nullish coercion applies). -/
def atomToStr : JAtom → String
  | .undef => "undefined"
  | .null => "null"
  | .bool b => if b then "true" else "false"
  | .num q => numToString q
  | .str s => s

/-- Array string coercion: elements' string forms joined with `","`. -/
def listToStr : List JAtom → String
  | [] => ""
  | [v] => atomToStr v
  | v :: vs => atomToStr v ++ "," ++ listToStr vs

/-- JS `String(v)` coercion (also `v.toString()` for non-nullish `v`). -/
def toStr : JVal → String
  | undef => "undefined"
  | null => "null"
  | bool b => if b then "true" else "false"
  | num q => numToString q
  | str s => s
  | list l => listToStr l

/-- `v.toString()`: throws a `TypeError` on `undefined` and `null`,
otherwise behaves as string coercion. -/
def toStrExc : JVal → Except Unit String
  | undef => .error ()
  | null => .error ()
  | v => .ok (toStr v)

/-- JS `Number(v)` coercion; `none` is `NaN`. -/
def toNum : JVal → Option ℚ
  | undef => none
  | null => some 0
  | bool b => some (if b then 1 else 0)
  | num q => some q
  | str s => strToNum s
  | list l => strToNum (listToStr l)

/-- JS strict equality `===` restricted to what filter evaluation
needs.  Values of different types are never equal; array equality in
JS is reference identity, which is not modelled (two array values
compare unequal here; no verified property depends on it). -/
def strictEq : JVal → JVal → Bool
  | undef, undef => true
  | null, null => true
  | bool a, bool b => a == b
  | num a, num b => a == b
  | str a, str b => a == b
  | _, _ => false

/-- JS property read `v[i]` for a numeric index: array element
(`undefined` out of range), single-character string for strings,
`undefined` for everything else. -/
def jsIndex (v : JVal) (i : ℕ) : JVal :=
  match v with
  | list l => ((l.get? i).map JAtom.toJVal).getD undef
  | str s => if i < s.length then str (String.mk [s.get ⟨i⟩]) else undef
  | _ => undef

end JVal

/-! ## Numeric comparison helpers (`Option ℚ` with `none` = `NaN`)

Every JS comparison `<`, `<=`, `>`, `>=`, `===` on numbers is false
when either side is `NaN`; `!==` is the negation of `===`. -/

/-- `a <= b` on JS numbers. -/
def numLe (a b : Option ℚ) : Bool :=
  match a, b with
  | some x, some y => x ≤ y
  | _, _ => false

/-- `a < b` on JS numbers. -/
def numLt (a b : Option ℚ) : Bool :=
  match a, b with
  | some x, some y => x < y
  | _, _ => false

/-- `a === b` on JS numbers. -/
def numEq (a b : Option ℚ) : Bool :=
  match a, b with
  | some x, some y => x == y
  | _, _ => false

/-! ## Attribute filters (`src/ol/daemon/filters/index.js`) -/

/-- `EnumOperators`. -/
inductive EnumOperators
  | between
  | contain
  | equal
  | greaterThan
  | greaterThanOrEqual
  | like
  | lessThan
  | lessThanOrEqual
  | notLike
  | notEqual
  | inList
  | notIn
deriving DecidableEq, Repr

/-- A filter (`FilterType`): attribute name, valid value and operator;
the operator destructures with default `EnumOperators.EQUAL`. -/
structure FilterT where
  attributeName : String
  validValue : JVal
  operator : Option EnumOperators := none
deriving Repr

/-- A feature as seen by filter and style evaluation: its transient
display state and its property bag (`feature.get(name)` is `undefined`
when the property is missing). -/
structure FeatureState where
  selected : Bool := false
  highlighted : Bool := false
  hidden : Bool := false
deriving DecidableEq, Repr

structure Feature where
  state : FeatureState := {}
  props : List (String × JVal) := []
deriving Repr

/-- `feature.get(attributeName)`. -/
def Feature.get (f : Feature) (name : String) : JVal :=
  (f.props.lookup name).getD JVal.undef

/-- `Array.prototype.every` with a callback that can throw: stops at
the first `false`, propagates the first exception. -/
def jsEvery : List β → (β → Except Unit Bool) → Except Unit Bool
  | [], _ => .ok true
  | x :: xs, p => do
      let b ← p x
      if b then jsEvery xs p else pure false

/-- `Array.prototype.find` with a callback that can throw. -/
def jsFind : List β → (β → Except Unit Bool) → Except Unit (Option β)
  | [], _ => .ok none
  | x :: xs, p => do
      let b ← p x
      if b then pure (some x) else jsFind xs p

/-- `String.prototype.indexOf(needle) > -1`: substring containment. -/
def strContains (hay needle : String) : Bool :=
  (List.range (hay.length + 1)).any (fun i => (hay.drop i).startsWith needle)

/-- `currentValue.indexOf(validValue) > -1` in the `CONTAIN` case:
strings search for the string coercion of the argument; arrays use
`===` membership; other receivers throw. -/
def jsIndexOfGt (cur valid : JVal) : Except Unit Bool :=
  match cur with
  | .str s => .ok (strContains s (JVal.toStr valid))
  | .list l => .ok (l.any (fun x => JVal.strictEq x.toJVal valid))
  | _ => .error ()

/-- `validValue.split(',')`: only strings have `split`; the subsequent
`.map(value => value.toString())` is the identity on strings. -/
def jsSplitComma : JVal → Except Unit (List String)
  | .str s => .ok (s.splitOn ",")
  | _ => .error ()

/-- The body of the `filters.every(...)` callback of `testFeature`:
one filter evaluated against one feature, with
`currentValue = feature.get(attributeName)`, following the `switch`
case by case. -/
def evalFilter (f : Feature) (flt : FilterT) : Except Unit Bool :=
  let currentValue := f.get flt.attributeName
  match flt.operator.getD .equal with
  | .between =>
      pure (numLe (JVal.toNum (flt.validValue.jsIndex 0)) (JVal.toNum currentValue) &&
        numLe (JVal.toNum currentValue) (JVal.toNum (flt.validValue.jsIndex 1)))
  | .contain =>
      if currentValue.truthy then jsIndexOfGt currentValue flt.validValue else pure false
  | .equal =>
      pure (numEq (JVal.toNum currentValue) (JVal.toNum flt.validValue))
  | .greaterThan =>
      pure (numLt (JVal.toNum flt.validValue) (JVal.toNum currentValue))
  | .greaterThanOrEqual =>
      pure (numLe (JVal.toNum flt.validValue) (JVal.toNum currentValue))
  | .inList => do
      if !currentValue.truthy then pure false
      else do
        let valuesIn ← jsSplitComma flt.validValue
        pure (valuesIn.contains (JVal.toStr currentValue))
  | .lessThan =>
      pure (numLt (JVal.toNum currentValue) (JVal.toNum flt.validValue))
  | .lessThanOrEqual =>
      pure (numLe (JVal.toNum currentValue) (JVal.toNum flt.validValue))
  | .like => do
      if !currentValue.truthy then pure false
      else do
        let v ← flt.validValue.toStrExc
        pure (JVal.toStr currentValue == v)
  | .notEqual =>
      pure (!(numEq (JVal.toNum currentValue) (JVal.toNum flt.validValue)))
  | .notIn => do
      if !currentValue.truthy then pure false
      else do
        let valuesNotIn ← jsSplitComma flt.validValue
        pure (!(valuesNotIn.contains (JVal.toStr currentValue)))
  | .notLike => do
      if !currentValue.truthy then pure false
      else do
        let v ← flt.validValue.toStrExc
        pure (!(JVal.toStr currentValue == v))

/-- `testFeature(feature, filters)` for a filter list: logical AND via
`filters.every` (JS also accepts a lone filter, wrapped into a
one-element array, or a callback; the list form is the one every
verified property uses). -/
def testFeature (f : Feature) (filters : List FilterT) : Except Unit Bool :=
  jsEvery filters (evalFilter f)

theorem numLe_none_right (a : Option ℚ) : numLe a none = false := by cases a <;> rfl

theorem numLe_none_left (b : Option ℚ) : numLe none b = false := by cases b <;> rfl

theorem numLt_none_right (a : Option ℚ) : numLt a none = false := by cases a <;> rfl

theorem numLt_none_left (b : Option ℚ) : numLt none b = false := by cases b <;> rfl

theorem numEq_none_left (b : Option ℚ) : numEq none b = false := by cases b <;> rfl

theorem jsEvery_singleton (p : β → Except Unit Bool) (x : β) :
    jsEvery [x] p = p x := by
  unfold jsEvery
  cases hp : p x with
  | error e => rfl
  | ok b => cases b <;> rfl

/-- C4 counterexample: the feature with an empty property bag has no
attribute `A`, yet the single `not-equal` filter on `A` evaluates to
`true` (`Number(undefined) !== Number(1)` is `NaN !== 1`), not `false`
as the claim states; in particular the non-empty filter list
containing it matches the feature. -/
theorem C4_counterexample :
    (Feature.get {} "A" = JVal.undef) ∧
    testFeature {}
        [{ attributeName := "A", validValue := JVal.num 1
           operator := some EnumOperators.notEqual }] = .ok true := by
  exact ⟨rfl, rfl⟩

/-- C4 (amended): a single filter whose named attribute is missing on
the feature evaluates to `false` for every operator except `not-equal`,
which evaluates to `true` (so a non-empty filter list can match such a
feature when its filters are `not-equal`). -/
theorem C4_missing_attribute (f : Feature) (name : String) (op : EnumOperators) (v : JVal)
    (h : f.get name = .undef) :
    testFeature f [{ attributeName := name, validValue := v, operator := some op }] =
      .ok (op == EnumOperators.notEqual) := by
  have hev : evalFilter f { attributeName := name, validValue := v, operator := some op } =
      .ok (op == EnumOperators.notEqual) := by
    cases op <;>
      simp [evalFilter, h, JVal.truthy, numLe_none_right, numLe_none_left,
        numLt_none_right, numLt_none_left, numEq_none_left, JVal.toNum] <;> rfl
  rw [testFeature, jsEvery_singleton, hev]

/-! ## Style and label resolution (`src/ol/layer/Vector.js`)

The style objects of the wrapped library are opaque to the resolution
logic except for the pieces `__styleFunction` reads: the stroke width
(when a stroke is set) and the image (circle radius or icon size). -/

/-- The image of a style: none, a circle with a radius, or an icon
with a size `[width, height]`. -/
inductive ImageStyle
  | none
  | circle (radius : ℚ)
  | icon (width height : ℚ)
deriving DecidableEq, Repr

/-- A drawing style, reduced to the data `__styleFunction` reads. -/
structure Style where
  strokeWidth : Option ℚ := Option.none
  image : ImageStyle := .none
deriving DecidableEq, Repr

/-- An entry of the layer's style list as built by `__createStyles`:
`{ filters: style.filters || [], style: createFeatureStyle(style) }`
(so `filters` is always an array, possibly empty). -/
structure FeatureStyle where
  filters : List FilterT := []
  style : Style := {}

/-- An entry of the layer's label list as built by `__createLabels`:
a resolution band, the label text template, and a text style (the
style itself is opaque here; the entry's identity is what the
resolution logic selects). -/
structure LabelStyle where
  maxResolution : ℚ
  minResolution : ℚ
  label : String := ""
deriving DecidableEq, Repr

/-- The layer data `__styleFunction` consults: the style list, the
label list, and the owning layer's `hasLayerInfo` /
`layerInfo.showLabels` flags (the feature styled by a layer's style
function belongs to that layer). -/
structure VectorLayerM where
  styles : List FeatureStyle := []
  labels : List LabelStyle := []
  hasLayerInfo : Bool := false
  showLabels : Bool := false

/-- The overlay style pushed for selected/highlighted features: the
shared default highlight or select style, after `__styleFunction`
mutates it — stroke width set to 3× the base style's stroke width
(when the base has a stroke), marker radius set to 2× a circle base
radius or 1.5× an icon-derived radius. -/
structure OverlayStyle where
  highlighted : Bool
  strokeWidth : Option ℚ
  radius : Option ℚ
deriving DecidableEq, Repr

/-- The `additionalStyle` block of `__styleFunction`. -/
def mkAdditionalStyle (highlighted : Bool) (base : Style) : OverlayStyle :=
  { highlighted := highlighted
    strokeWidth := base.strokeWidth.map (fun w => w * 3)
    radius :=
      match base.image with
      | .circle radius => some (radius * 2)
      | .icon width height => some ((width + height) / 2 / 2 * (3 / 2))
      | .none => Option.none }

/-- An element of the style stack `__styleFunction` returns. -/
inductive StyleElem
  | overlay (o : OverlayStyle)
  | base (s : Style)
  | label (rule : LabelStyle)
deriving DecidableEq, Repr

def isLabelElem : StyleElem → Bool
  | .label _ => true
  | _ => false

/-- `__getStyleForFeature`: `this.styles.find(...)`, testing each
entry's filter list in list order.  (The JS callback's `else true`
branch for a missing `filters` is unreachable after `__createStyles`,
which defaults `filters` to `[]` — a truthy value whose `testFeature`
is vacuously `true`, the same result.)  A filter evaluation that
throws propagates out of `find`. -/
def getStyleForFeature (layer : VectorLayerM) (f : Feature) :
    Except Unit (Option FeatureStyle) :=
  jsFind layer.styles (fun style => testFeature f style.filters)

/-- `__getLabelForResolution`: `this.labels.find(label =>
label.maxResolution >= resolution && resolution >= label.minResolution)`. -/
def getLabelForResolution (layer : VectorLayerM) (resolution : ℚ) : Option LabelStyle :=
  layer.labels.find? (fun label =>
    decide (label.maxResolution ≥ resolution) && decide (resolution ≥ label.minResolution))

/-- The overlay pushes of `__styleFunction`: one overlay element when
the feature is selected or highlighted (the highlight style when
highlighted, else the select style), nothing otherwise. -/
def overlayPart (f : Feature) (featureStyle : FeatureStyle) : List StyleElem :=
  if f.state.selected || f.state.highlighted then
    [.overlay (mkAdditionalStyle f.state.highlighted featureStyle.style)]
  else []

/-- The label push of `__styleFunction`: when the owning layer has
layer info and labels are turned on, the label rule found for the
current resolution (its text set by `getFormattedLabel`, which no
verified property inspects), nothing otherwise. -/
def labelPart (layer : VectorLayerM) (resolution : ℚ) : List StyleElem :=
  if layer.hasLayerInfo && layer.showLabels then
    match getLabelForResolution layer resolution with
    | some featureLabel => [.label featureLabel]
    | Option.none => []
  else []

/-- `__styleFunction(feature, resolution)`: `null` for hidden
features; otherwise the first matching style rule supplies the base
style (`null` when none matches), an overlay is pushed before the base
for selected/highlighted features, and the resolution-matched label
rule is pushed after it; the final `styles.length > 0` guard returns
`null` for an empty stack. -/
def styleFunction (layer : VectorLayerM) (f : Feature) (resolution : ℚ) :
    Except Unit (Option (List StyleElem)) :=
  if f.state.hidden then .ok Option.none
  else
    match getStyleForFeature layer f with
    | .error e => .error e
    | .ok Option.none => .ok Option.none
    | .ok (some featureStyle) =>
        let styles : List StyleElem :=
          overlayPart f featureStyle ++ [.base featureStyle.style] ++
            labelPart layer resolution
        .ok (if styles.length > 0 then some styles else Option.none)

/-- The base styles of a result stack (the elements pushed as
`featureStyle.style`). -/
def baseStyles (stack : List StyleElem) : List Style :=
  stack.filterMap (fun e => match e with | .base s => some s | _ => Option.none)

theorem baseStyles_overlayPart (f : Feature) (fs : FeatureStyle) :
    baseStyles (overlayPart f fs) = [] := by
  unfold overlayPart baseStyles
  split <;> rfl

theorem baseStyles_labelPart (layer : VectorLayerM) (r : ℚ) :
    baseStyles (labelPart layer r) = [] := by
  unfold labelPart baseStyles
  split
  · split <;> rfl
  · rfl

theorem countP_label_overlayPart (f : Feature) (fs : FeatureStyle) :
    (overlayPart f fs).countP isLabelElem = 0 := by
  unfold overlayPart
  split <;> rfl

theorem countP_label_labelPart (layer : VectorLayerM) (r : ℚ) :
    (labelPart layer r).countP isLabelElem ≤ 1 := by
  unfold labelPart
  split
  · split <;> simp [List.countP, List.countP.go, isLabelElem]
  · simp [List.countP, List.countP.go]

/-- The shape of the result of `__styleFunction` when a style rule
matched: overlay part, then the base style, then the label part. -/
theorem styleFunction_found (layer : VectorLayerM) (f : Feature) (r : ℚ)
    (hhid : f.state.hidden = false) (fs : FeatureStyle)
    (hfind : getStyleForFeature layer f = .ok (some fs)) :
    styleFunction layer f r =
      .ok (some (overlayPart f fs ++ [.base fs.style] ++ labelPart layer r)) := by
  unfold styleFunction
  rw [hhid, hfind]
  simp

theorem C4_missing_attribute_witness :
    testFeature {}
        [{ attributeName := "A", validValue := JVal.num 1
           operator := some EnumOperators.equal }] =
      .ok (EnumOperators.equal == EnumOperators.notEqual) :=
  C4_missing_attribute {} "A" EnumOperators.equal (JVal.num 1) rfl

theorem baseStyles_append (a b : List StyleElem) :
    baseStyles (a ++ b) = baseStyles a ++ baseStyles b := by
  unfold baseStyles
  exact List.filterMap_append a b _

/-- `find` (with a throwing callback) returns the first match: if every
earlier element tests `false` and `x` tests `true`, the result is `x`. -/
theorem jsFind_first (p : β → Except Unit Bool) (pre : List β) (x : β) (post : List β)
    (hpre : ∀ y ∈ pre, p y = .ok false) (hx : p x = .ok true) :
    jsFind (pre ++ x :: post) p = .ok (some x) := by
  induction pre with
  | nil =>
      show jsFind (x :: post) p = .ok (some x)
      unfold jsFind
      rw [hx]
      rfl
  | cons y ys ih =>
      have hy := hpre y (List.mem_cons_self y ys)
      have ih' := ih (fun z hz => hpre z (List.mem_cons_of_mem y hz))
      show jsFind (y :: (ys ++ x :: post)) p = .ok (some x)
      unfold jsFind
      rw [hy]
      exact ih'

/-- `Array.prototype.find` with a pure predicate (`List.find?`)
returns the first match. -/
theorem find?_first {p : β → Bool} (pre : List β) (x : β) (post : List β)
    (hpre : ∀ y ∈ pre, p y = false) (hx : p x = true) :
    (pre ++ x :: post).find? p = some x := by
  induction pre with
  | nil => simpa [List.find?] using List.find?_cons_of_pos post hx
  | cons y ys ih =>
      have hy := hpre y (List.mem_cons_self y ys)
      have ih' := ih (fun z hz => hpre z (List.mem_cons_of_mem y hz))
      show ((y :: (ys ++ x :: post)).find? p) = some x
      rw [List.find?_cons_of_neg _ (by simp [hy]), ih']

theorem styleFunction_label_count (layer : VectorLayerM) (f : Feature) (r : ℚ)
    (stack : List StyleElem) (h : styleFunction layer f r = .ok (some stack)) :
    stack.countP isLabelElem ≤ 1 := by
  cases hst : f.state.hidden with
  | true =>
      unfold styleFunction at h
      rw [hst] at h
      simp at h
  | false =>
      cases hfind : getStyleForFeature layer f with
      | error e =>
          unfold styleFunction at h
          rw [hst, hfind] at h
          simp at h
      | ok o =>
          cases o with
          | none =>
              unfold styleFunction at h
              rw [hst, hfind] at h
              simp at h
          | some featureStyle =>
              rw [styleFunction_found layer f r hst featureStyle hfind] at h
              have hstack : overlayPart f featureStyle ++
                  [StyleElem.base featureStyle.style] ++ labelPart layer r = stack := by
                simpa using h
              rw [← hstack, List.countP_append, List.countP_append,
                countP_label_overlayPart]
              have hlab := countP_label_labelPart layer r
              have hbase : ([StyleElem.base featureStyle.style]).countP isLabelElem = 0 := rfl
              omega

/-- C5: a hidden feature resolves to `null` whatever the layer's style
rules, the selected/highlighted state and the label configuration —
the `feature.state.hidden` check short-circuits everything else. -/
theorem C5_hidden_short_circuit (layer : VectorLayerM) (f : Feature) (r : ℚ)
    (h : f.state.hidden = true) :
    styleFunction layer f r = .ok Option.none := by
  unfold styleFunction
  rw [h]
  rfl

theorem C5_hidden_short_circuit_witness :
    styleFunction { styles := [{ filters := [], style := {} }], showLabels := true }
      { state := { hidden := true, selected := true } } 0 = .ok Option.none :=
  C5_hidden_short_circuit _ _ 0 rfl

/-- C6: style rules are tested in list order and the first rule whose
filter list the feature satisfies supplies the base style; an empty
filter list is vacuously satisfied; with rules
`[{filter: A, style: S1}, {filter: none, style: S2}]` a non-hidden
feature matching `A` resolves with base style `S1` and one not
matching `A` with base style `S2`; when no rule matches, resolution
returns `null`. -/
theorem C6_style_precedence (f : Feature) (r : ℚ) (A : List FilterT) (S1 S2 : Style)
    (labels : List LabelStyle) (hli sl : Bool) (hhid : f.state.hidden = false) :
    (testFeature f [] = .ok true) ∧
    (∀ layer : VectorLayerM, ∀ pre st post,
      layer.styles = pre ++ st :: post →
      (∀ y ∈ pre, testFeature f y.filters = .ok false) →
      testFeature f st.filters = .ok true →
      ∃ stack, styleFunction layer f r = .ok (some stack) ∧
        baseStyles stack = [st.style]) ∧
    (testFeature f A = .ok true →
      ∃ stack, styleFunction ⟨[⟨A, S1⟩, ⟨[], S2⟩], labels, hli, sl⟩ f r = .ok (some stack) ∧
        baseStyles stack = [S1]) ∧
    (testFeature f A = .ok false →
      ∃ stack, styleFunction ⟨[⟨A, S1⟩, ⟨[], S2⟩], labels, hli, sl⟩ f r = .ok (some stack) ∧
        baseStyles stack = [S2]) ∧
    (∀ layer : VectorLayerM, getStyleForFeature layer f = .ok Option.none →
      styleFunction layer f r = .ok Option.none) := by
  have hgen : ∀ layer : VectorLayerM, ∀ pre st post,
      layer.styles = pre ++ st :: post →
      (∀ y ∈ pre, testFeature f y.filters = .ok false) →
      testFeature f st.filters = .ok true →
      ∃ stack, styleFunction layer f r = .ok (some stack) ∧
        baseStyles stack = [st.style] := by
    intro layer pre st post hsty hpre hx
    have hfind : getStyleForFeature layer f = .ok (some st) := by
      unfold getStyleForFeature
      rw [hsty]
      exact jsFind_first _ pre st post hpre hx
    refine ⟨_, styleFunction_found layer f r hhid st hfind, ?_⟩
    rw [baseStyles_append, baseStyles_append, baseStyles_overlayPart,
      baseStyles_labelPart]
    rfl
  refine ⟨rfl, hgen, ?_, ?_, ?_⟩
  · intro hA
    exact hgen _ [] ⟨A, S1⟩ [⟨[], S2⟩] rfl (by simp) hA
  · intro hA
    exact hgen _ [⟨A, S1⟩] ⟨[], S2⟩ [] rfl (by simpa using hA) rfl
  · intro layer hnone
    unfold styleFunction
    rw [hhid, hnone]
    rfl

theorem C6_style_precedence_witness :
    ∃ stack, styleFunction
        ⟨[⟨[{ attributeName := "T", validValue := JVal.num 1 }],
            { strokeWidth := some 1 }⟩,
          ⟨[], { strokeWidth := some 2 }⟩], [], false, false⟩
        { props := [("T", JVal.num 1)] } 0 = .ok (some stack) ∧
      baseStyles stack = [{ strokeWidth := some 1 }] :=
  (C6_style_precedence { props := [("T", JVal.num 1)] } 0
      [{ attributeName := "T", validValue := JVal.num 1 }]
      { strokeWidth := some 1 } { strokeWidth := some 2 } [] false false rfl).2.2.1 rfl

/-- C7: with label display enabled the applied label rule is the first
one in list order whose band contains the resolution with both bounds
inclusive — a band `[1000, 5000]` matches at exactly `1000` and at
exactly `5000` — and a style-resolution call applies at most one label
rule. -/
theorem C7_label_band (layer : VectorLayerM) (r : ℚ) :
    (∀ pre l post, layer.labels = pre ++ l :: post →
      (∀ y ∈ pre, ¬(y.minResolution ≤ r ∧ r ≤ y.maxResolution)) →
      l.minResolution ≤ r → r ≤ l.maxResolution →
      getLabelForResolution layer r = some l) ∧
    (∀ l : LabelStyle, l.minResolution = 1000 → l.maxResolution = 5000 →
      getLabelForResolution { labels := [l] } 1000 = some l ∧
      getLabelForResolution { labels := [l] } 5000 = some l) ∧
    (∀ f stack, styleFunction layer f r = .ok (some stack) →
      stack.countP isLabelElem ≤ 1) ∧
    ((layer.hasLayerInfo && layer.showLabels) = true →
      labelPart layer r =
        (match getLabelForResolution layer r with
          | some l => [StyleElem.label l]
          | Option.none => [])) := by
  refine ⟨?_, ?_, ?_, ?_⟩
  · intro pre l post hlabels hpre h1 h2
    unfold getLabelForResolution
    rw [hlabels]
    refine find?_first pre l post ?_ ?_
    · intro y hy
      cases hb : (decide (y.maxResolution ≥ r) && decide (r ≥ y.minResolution)) with
      | false => rfl
      | true =>
          exfalso
          simp only [Bool.and_eq_true, decide_eq_true_eq, ge_iff_le] at hb
          exact hpre y hy ⟨hb.2, hb.1⟩
    · simp [ge_iff_le, h1, h2]
  · intro l hmin hmax
    constructor <;>
      · unfold getLabelForResolution
        simp [List.find?, hmin, hmax]
        norm_num
  · intro f stack h
    exact styleFunction_label_count layer f r stack h
  · intro he
    unfold labelPart
    rw [he]
    rfl

theorem C7_label_band_witness :
    getLabelForResolution { labels := [⟨5000, 1000, "t"⟩] } 1000 = some ⟨5000, 1000, "t"⟩ ∧
    getLabelForResolution { labels := [⟨5000, 1000, "t"⟩] } 5000 = some ⟨5000, 1000, "t"⟩ :=
  (C7_label_band { labels := [⟨5000, 1000, "t"⟩] } 1000).2.1 ⟨5000, 1000, "t"⟩ rfl rfl

/-! ## Coded-value domains (`src/ol/daemon/layers/fields/Domain.js`) -/

/-- A coded value as stored in `Domain.values` (the constructor maps
incoming `codedValues` to `{ code, value: name || value }`; the codes
are typed `!String|Number`). -/
structure CodedValue where
  code : JVal
  value : JVal

/-- The `Domain` data `getValue` consults. -/
structure DomainM where
  name : String := ""
  type : String := "coded"
  range : List ℚ := []
  values : List CodedValue := []

/-- `Domain.getValue(code)`:
`this.values.find(item => item.code.toString() === (code ? code.toString() : code))`,
returning the found item's `value`, else the input `code`.
`item.code.toString()` throws on a nullish stored code; the right-hand
side only stringifies `code` when it is truthy (so nullish inputs are
safe) and otherwise compares the stored code's string against the raw
falsy input with `===`. -/
def DomainM.getValue (d : DomainM) (code : JVal) : Except Unit JVal := do
  let found ← jsFind d.values (fun item => do
      let s ← item.code.toStrExc
      pure (JVal.strictEq (JVal.str s)
        (if code.truthy then JVal.str code.toStr else code)))
  pure (match found with | some item => item.value | Option.none => code)

theorem toStrExc_ok (v : JVal) (h1 : v ≠ .undef) (h2 : v ≠ .null) :
    v.toStrExc = .ok v.toStr := by
  cases v
  · exact absurd rfl h1
  · exact absurd rfl h2
  all_goals rfl

/-- `find` with an all-`false` callback returns `undefined`. -/
theorem jsFind_none (p : β → Except Unit Bool) (l : List β)
    (h : ∀ y ∈ l, p y = .ok false) : jsFind l p = .ok Option.none := by
  induction l with
  | nil => rfl
  | cons y ys ih =>
      have hy := h y (List.mem_cons_self y ys)
      have ih' := ih (fun z hz => h z (List.mem_cons_of_mem y hz))
      show jsFind (y :: ys) p = .ok Option.none
      unfold jsFind
      rw [hy]
      exact ih'

theorem strictEq_str_right (s : String) (v : JVal) (hv : ∀ t, v ≠ .str t) :
    JVal.strictEq (.str s) v = false := by
  cases v
  case str t => exact absurd rfl (hv t)
  all_goals rfl

/-- `find` whose callbacks all succeed (no exception) succeeds. -/
theorem jsFind_total (p : β → Except Unit Bool) (l : List β)
    (h : ∀ y ∈ l, ∃ b, p y = .ok b) : ∃ o, jsFind l p = .ok o := by
  induction l with
  | nil => exact ⟨Option.none, rfl⟩
  | cons y ys ih =>
      obtain ⟨b, hb⟩ := h y (List.mem_cons_self y ys)
      obtain ⟨o, ho⟩ := ih (fun z hz => h z (List.mem_cons_of_mem y hz))
      cases b with
      | false => exact ⟨o, by unfold jsFind; rw [hb]; exact ho⟩
      | true => exact ⟨some y, by unfold jsFind; rw [hb]; rfl⟩

/-- C10 counterexample: a domain holding the coded value
`{code: '', value: 'None'}` queried with the falsy code `''` returns
`'None'`, not the input code — `'' ? '' .toString() : ''` is `''`,
which strictly equals the stored code's string form — refuting the
claim that a falsy code is always returned unchanged (equivalently,
that only a truthy code can match a coded value). -/
theorem C10_counterexample :
    (JVal.str "").truthy = false ∧
    DomainM.getValue { values := [⟨JVal.str "", JVal.str "None"⟩] } (JVal.str "") =
      .ok (JVal.str "None") ∧
    JVal.str "None" ≠ JVal.str "" := by
  refine ⟨rfl, rfl, by decide⟩

/-- C10 (amended): with non-nullish stored codes, `getValue` is total
(never throws, never yields `undefined`): it returns the display value
of the first coded value whose code's string form strictly equals the
comparison key — `code.toString()` when `code` is truthy, the raw
`code` otherwise — and the input `code` itself when nothing matches;
in particular every falsy non-string code (`0`, `null`, `false`,
`undefined`) is returned unchanged, while the falsy empty-string code
may still match a stored empty-string code (the counterexample). -/
theorem C10_getValue (d : DomainM) (code : JVal)
    (hcodes : ∀ cv ∈ d.values, cv.code ≠ .undef ∧ cv.code ≠ .null) :
    (∃ res, d.getValue code = .ok res) ∧
    (code.truthy = true →
      ∀ pre cv post, d.values = pre ++ cv :: post →
        (∀ y ∈ pre, y.code.toStr ≠ code.toStr) →
        cv.code.toStr = code.toStr →
        d.getValue code = .ok cv.value) ∧
    (code.truthy = true → (∀ cv ∈ d.values, cv.code.toStr ≠ code.toStr) →
      d.getValue code = .ok code) ∧
    (code.truthy = false → (∀ t, code ≠ .str t) → d.getValue code = .ok code) := by
  have hp : ∀ cv ∈ d.values,
      (do
        let s ← cv.code.toStrExc
        pure (JVal.strictEq (JVal.str s)
          (if code.truthy then JVal.str code.toStr else code)) : Except Unit Bool) =
        .ok (JVal.strictEq (JVal.str cv.code.toStr)
          (if code.truthy then JVal.str code.toStr else code)) := by
    intro cv hcv
    obtain ⟨h1, h2⟩ := hcodes cv hcv
    rw [toStrExc_ok cv.code h1 h2]
    rfl
  refine ⟨?_, ?_, ?_, ?_⟩
  · obtain ⟨o, ho⟩ := jsFind_total _ d.values (fun y hy => ⟨_, hp y hy⟩)
    exact ⟨_, by unfold DomainM.getValue; rw [ho]; rfl⟩
  · intro htr pre cv post hvals hpre hcv
    have htarget : (if code.truthy then JVal.str code.toStr else code) =
        JVal.str code.toStr := by rw [htr]; rfl
    have hfind : jsFind d.values (fun item : CodedValue => do
        let s ← item.code.toStrExc
        pure (JVal.strictEq (JVal.str s)
          (if code.truthy then JVal.str code.toStr else code))) = .ok (some cv) := by
      rw [hvals]
      refine jsFind_first _ pre cv post ?_ ?_
      · intro y hy
        rw [hp y (hvals ▸ List.mem_append_left _ hy), htarget]
        show Except.ok (y.code.toStr == code.toStr) = _
        simp [hpre y hy]
      · rw [hp cv (hvals ▸ List.mem_append_right _ (List.mem_cons_self cv post)), htarget]
        show Except.ok (cv.code.toStr == code.toStr) = _
        simp [hcv]
    unfold DomainM.getValue
    rw [hfind]
    rfl
  · intro htr hall
    have htarget : (if code.truthy then JVal.str code.toStr else code) =
        JVal.str code.toStr := by rw [htr]; rfl
    have hfind : jsFind d.values (fun item : CodedValue => do
        let s ← item.code.toStrExc
        pure (JVal.strictEq (JVal.str s)
          (if code.truthy then JVal.str code.toStr else code))) = .ok Option.none := by
      refine jsFind_none _ d.values ?_
      intro y hy
      rw [hp y hy, htarget]
      show Except.ok (y.code.toStr == code.toStr) = _
      simp [hall y hy]
    unfold DomainM.getValue
    rw [hfind]
    rfl
  · intro hfl hns
    have htarget : (if code.truthy then JVal.str code.toStr else code) = code := by
      rw [hfl]
      rfl
    have hfind : jsFind d.values (fun item : CodedValue => do
        let s ← item.code.toStrExc
        pure (JVal.strictEq (JVal.str s)
          (if code.truthy then JVal.str code.toStr else code))) = .ok Option.none := by
      refine jsFind_none _ d.values ?_
      intro y hy
      rw [hp y hy, htarget, strictEq_str_right _ code hns]
    unfold DomainM.getValue
    rw [hfind]
    rfl

theorem C10_getValue_witness :
    DomainM.getValue { values := [⟨JVal.num 5, JVal.str "five"⟩] } (JVal.num 5) =
      .ok (JVal.str "five") :=
  (C10_getValue { values := [⟨JVal.num 5, JVal.str "five"⟩] } (JVal.num 5)
      (by decide)).2.1 rfl
    [] ⟨JVal.num 5, JVal.str "five"⟩ [] rfl (by intro y hy; exact absurd hy (List.not_mem_nil y))
    rfl

/-! ## Edit snapshots (`src/ol/daemon/edits/Edit.js`)

`Edit._clone` copies a property bag key by key; the value under the
`geometry` key is replaced by `properties['geometry'].clone()` — a
freshly allocated copy of the referenced geometry object — while every
other value, object references included, is copied as-is.  JS object
values are references, so in-place mutation is modelled as an update
of an explicit heap at an address. -/

/-- A geometry payload (opaque to `Edit.js` except for `clone()`,
which copies it into a fresh object). -/
structure Geom where
  coords : List (ℚ × ℚ) := []
deriving DecidableEq, Repr

/-- A mutable heap object: a geometry, or a plain mutable object (the
shape of any non-geometry object value a property may hold). -/
inductive HeapObj
  | geom (g : Geom)
  | obj (fields : List (String × JVal))
deriving DecidableEq, Repr

/-- The heap: addresses bound to mutable objects. -/
abbrev Heap := List (ℕ × HeapObj)

namespace Heap

def lookup (h : Heap) (a : ℕ) : Option HeapObj := List.lookup a h

/-- In-place mutation of the object at address `a`. -/
def update (h : Heap) (a : ℕ) (o : HeapObj) : Heap :=
  h.map (fun p => if p.1 = a then (a, o) else p)

/-- An address not bound in `h`. -/
def fresh (h : Heap) : ℕ := (h.map Prod.fst).foldr max 0 + 1

/-- Allocate a new object, returning its address. -/
def alloc (h : Heap) (o : HeapObj) : ℕ × Heap := (h.fresh, h ++ [(h.fresh, o)])

end Heap

/-- A property value: a primitive stored directly, or a reference to a
heap object (a geometry or any other object). -/
inductive PropVal
  | prim (v : JVal)
  | ref (a : ℕ)
deriving DecidableEq, Repr

/-- A property bag (`Object.keys` order preserved). -/
abbrev Props := List (String × PropVal)

/-- `Edit._clone(properties)`:
`clonedProperties[property] = property === 'geometry' ?
properties[property].clone() : properties[property]` over all keys.
A `geometry` value must reference a geometry object (anything else has
no `clone` method and throws); its clone is a freshly allocated copy;
every other value is copied as-is — a shallow copy. -/
def cloneProps : Props → Heap → Except Unit (Props × Heap)
  | [], h => .ok ([], h)
  | (k, v) :: rest, h =>
      if k = "geometry" then
        match v with
        | .ref a =>
            match h.lookup a with
            | some (.geom g) =>
                match cloneProps rest (h.alloc (.geom g)).2 with
                | .ok (restC, h3) => .ok ((k, .ref (h.alloc (.geom g)).1) :: restC, h3)
                | .error e => .error e
            | _ => .error ()
        | _ => .error ()
      else
        match cloneProps rest h with
        | .ok (restC, h3) => .ok ((k, v) :: restC, h3)
        | .error e => .error e

/-- The observable value of a property: primitives directly,
references through the heap. -/
inductive ObsVal
  | prim (v : JVal)
  | geom (g : Geom)
  | obj (fields : List (String × JVal))
  | dangling
deriving DecidableEq, Repr

def resolveProp (h : Heap) : PropVal → ObsVal
  | .prim v => .prim v
  | .ref a =>
      match h.lookup a with
      | some (.geom g) => .geom g
      | some (.obj fs) => .obj fs
      | Option.none => .dangling

/-- The observable content of a property bag under a heap. -/
def resolveProps (h : Heap) (props : Props) : List (String × ObsVal) :=
  props.map (fun p => (p.1, resolveProp h p.2))

/-- An `Edit` record: feature id, edit type, and the two property
snapshots (`_oldState` / `_newState`). -/
structure EditRec where
  fid : String
  editType : EnumEditType
  oldState : Props := []
  newState : Props := []

/-- `set oldState(properties) { this._oldState = this._clone(properties); }` -/
def EditRec.setOldState (e : EditRec) (properties : Props) (h : Heap) :
    Except Unit (EditRec × Heap) := do
  let (c, h2) ← cloneProps properties h
  pure ({ e with oldState := c }, h2)

/-- `set newState(properties) { this._newState = this._clone(properties); }` -/
def EditRec.setNewState (e : EditRec) (properties : Props) (h : Heap) :
    Except Unit (EditRec × Heap) := do
  let (c, h2) ← cloneProps properties h
  pure ({ e with newState := c }, h2)

/-- The `Edit` constructor: stores fid, layer (not modelled — never
read back by verified properties), edit type, then assigns both
snapshots through the cloning setters (`oldState || {}` defaults an
absent argument to the empty bag). -/
def EditRec.make (fid : String) (editType : EnumEditType)
    (oldState newState : Props) (h : Heap) : Except Unit (EditRec × Heap) := do
  let (e1, h1) ← EditRec.setOldState { fid, editType } oldState h
  let (e2, h2) ← EditRec.setNewState e1 newState h1
  pure (e2, h2)

theorem le_foldr_max (l : List ℕ) : ∀ a ∈ l, a ≤ l.foldr max 0 := by
  induction l with
  | nil => intro a ha; exact absurd ha (List.not_mem_nil a)
  | cons x xs ih =>
      intro a ha
      rcases List.mem_cons.1 ha with rfl | ha2
      · exact le_max_left _ _
      · exact le_trans (ih a ha2) (le_max_right _ _)

theorem fresh_not_mem (h : Heap) : ∀ a ∈ h.map Prod.fst, a ≠ Heap.fresh h := by
  intro a ha
  have := le_foldr_max (h.map Prod.fst) a ha
  unfold Heap.fresh
  omega

theorem lookup_update_ne (h : Heap) (a g : ℕ) (o : HeapObj) (hne : g ≠ a) :
    (h.update a o).lookup g = h.lookup g := by
  induction h with
  | nil => rfl
  | cons p t ih =>
      show Heap.lookup (List.map _ (p :: t)) g = _
      rw [List.map_cons]
      by_cases hp : p.1 = a
      · rw [if_pos hp]
        show List.lookup g ((a, o) :: _) = List.lookup g (p :: t)
        rw [List.lookup_cons, List.lookup_cons]
        have hga : (g == a) = false := by simp [hne]
        have hgp : (g == p.1) = false := by simp [hp ▸ hne]
        rw [hga, hp, hga]
        exact ih
      · rw [if_neg hp]
        show List.lookup g (p :: _) = List.lookup g (p :: t)
        rw [List.lookup_cons, List.lookup_cons]
        cases hgp : (g == p.1)
        · exact ih
        · rfl

/-- Inversion of a successful clone whose head key is `geometry`: the
value was a reference to a live geometry object, and the clone bound
the key to the freshly allocated copy. -/
theorem cloneProps_cons_geometry_inv (v : PropVal) (rest : Props) (h : Heap) (c : Props)
    (hout : Heap) (hclone : cloneProps (("geometry", v) :: rest) h = .ok (c, hout)) :
    ∃ a0 g0 restC h3, v = PropVal.ref a0 ∧ Heap.lookup h a0 = some (.geom g0) ∧
      cloneProps rest (h.alloc (.geom g0)).2 = .ok (restC, h3) ∧
      c = ("geometry", PropVal.ref (Heap.fresh h)) :: restC ∧ hout = h3 := by
  cases v with
  | prim w => simp [cloneProps] at hclone
  | ref a0 =>
      cases hl : Heap.lookup h a0 with
      | none => simp [cloneProps, hl] at hclone
      | some ho =>
          cases ho with
          | obj fs => simp [cloneProps, hl] at hclone
          | geom g0 =>
              simp only [cloneProps, hl, if_true] at hclone
              revert hclone
              cases hrest : cloneProps rest (h.alloc (.geom g0)).2 with
              | error e => intro hclone; simp at hclone
              | ok pr =>
                  obtain ⟨restC, h3⟩ := pr
                  intro hclone
                  simp only [Except.ok.injEq, Prod.mk.injEq] at hclone
                  exact ⟨a0, g0, restC, h3, rfl, hl, hrest, hclone.1.symm, hclone.2.symm⟩

/-- Inversion of a successful clone whose head key is not `geometry`:
the value is copied as-is. -/
theorem cloneProps_cons_other_inv (k : String) (v : PropVal) (rest : Props) (h : Heap)
    (c : Props) (hout : Heap) (hk : ¬ k = "geometry")
    (hclone : cloneProps ((k, v) :: rest) h = .ok (c, hout)) :
    ∃ restC h3, cloneProps rest h = .ok (restC, h3) ∧
      c = (k, v) :: restC ∧ hout = h3 := by
  simp only [cloneProps] at hclone
  rw [if_neg hk] at hclone
  revert hclone
  cases hrest : cloneProps rest h with
  | error e => intro hclone; simp at hclone
  | ok pr =>
      obtain ⟨restC, h3⟩ := pr
      intro hclone
      simp only [Except.ok.injEq, Prod.mk.injEq] at hclone
      exact ⟨restC, h3, rfl, hclone.1.symm, hclone.2.symm⟩

/-- Every `geometry` reference in a cloned bag is an address freshly
allocated during the clone — never an address already bound before the
clone began. -/
theorem cloneProps_geom_fresh :
    ∀ (props : Props) (h : Heap) (c : Props) (hout : Heap),
      cloneProps props h = .ok (c, hout) →
      ∀ g, ("geometry", PropVal.ref g) ∈ c → ∀ a ∈ h.map Prod.fst, g ≠ a := by
  intro props
  induction props with
  | nil =>
      intro h c hout hclone g hg
      cases hclone
      exact absurd hg (List.not_mem_nil _)
  | cons kv rest ih =>
      intro h c hout hclone g hg a ha
      obtain ⟨k, v⟩ := kv
      by_cases hk : k = "geometry"
      · subst hk
        obtain ⟨a0, g0, restC, h3, hv, hl, hrest, hc, -⟩ :=
          cloneProps_cons_geometry_inv v rest h c hout hclone
        subst hc
        rcases List.mem_cons.1 hg with hhead | htail
        · have hgf : g = Heap.fresh h := by simpa using congrArg Prod.snd hhead
          rw [hgf]
          intro hcontr
          exact fresh_not_mem h a ha hcontr.symm
        · refine ih (h.alloc (.geom g0)).2 restC h3 hrest g htail a ?_
          show a ∈ (h ++ [(Heap.fresh h, HeapObj.geom g0)]).map Prod.fst
          rw [List.map_append]
          exact List.mem_append_left _ ha
      · obtain ⟨restC, h3, hrest, hc, -⟩ :=
          cloneProps_cons_other_inv k v rest h c hout hk hclone
        subst hc
        rcases List.mem_cons.1 hg with hhead | htail
        · exact absurd (congrArg Prod.fst hhead).symm hk
        · exact ih h restC h3 hrest g htail a ha

/-- A concrete scenario for the snapshot claims: a feature whose
property bag holds its geometry (heap address 0) and a mutable
non-geometry object `tags` (heap address 1). -/
def c9Heap : Heap := [(0, .geom ⟨[(0, 0)]⟩), (1, .obj [("a", JVal.num 1)])]

def c9Props : Props := [("geometry", PropVal.ref 0), ("tags", PropVal.ref 1)]

/-- The `Edit` produced by assigning `oldState` from `c9Props`: the
geometry was cloned to the fresh address 2, `tags` still references
address 1. -/
def c9Edit : EditRec :=
  { fid := "f", editType := .update
    oldState := [("geometry", PropVal.ref 2), ("tags", PropVal.ref 1)] }

def c9HeapAfter : Heap :=
  [(0, .geom ⟨[(0, 0)]⟩), (1, .obj [("a", JVal.num 1)]), (2, .geom ⟨[(0, 0)]⟩)]

/-- C9 counterexample: the snapshot is not a deep copy.  Assigning
`oldState` clones only the geometry; the `tags` property still
references the live object at address 1, and mutating that live object
in place afterwards changes the stored snapshot's observable content —
refuting "any later mutation of the live feature's properties …
leaves the stored snapshots unchanged". -/
theorem C9_counterexample :
    EditRec.setOldState { fid := "f", editType := .update } c9Props c9Heap =
      .ok (c9Edit, c9HeapAfter) ∧
    resolveProps (Heap.update c9HeapAfter 1 (HeapObj.obj [("a", JVal.num 2)]))
        c9Edit.oldState ≠
      resolveProps c9HeapAfter c9Edit.oldState := by
  exact ⟨rfl, by decide⟩

theorem resolveProp_ref (h : Heap) (g : ℕ) :
    resolveProp h (PropVal.ref g) =
      (match h.lookup g with
        | some (.geom g0) => ObsVal.geom g0
        | some (.obj fs) => ObsVal.obj fs
        | Option.none => ObsVal.dangling) := rfl

/-- C9 (amended): the snapshots are shallow copies with only the
`geometry` sub-value cloned at assignment time.  After `oldState` is
assigned, mutating (in place) any object that already existed before
the assignment — the live feature's geometry included — leaves the
snapshot's geometry value and all primitive-valued snapshot entries
unchanged; only a shared non-geometry object-valued property can be
affected (the counterexample). -/
theorem C9_snapshot_protection (e : EditRec) (properties : Props) (h : Heap)
    (e2 : EditRec) (h2 : Heap)
    (hset : EditRec.setOldState e properties h = .ok (e2, h2))
    (a : ℕ) (ha : a ∈ h.map Prod.fst) (o : HeapObj) :
    (∀ k v, (k, PropVal.prim v) ∈ e2.oldState →
      resolveProp (Heap.update h2 a o) (PropVal.prim v) =
        resolveProp h2 (PropVal.prim v)) ∧
    (∀ g, ("geometry", PropVal.ref g) ∈ e2.oldState →
      resolveProp (Heap.update h2 a o) (PropVal.ref g) =
        resolveProp h2 (PropVal.ref g)) := by
  have hinv : ∃ c, cloneProps properties h = .ok (c, h2) ∧ e2.oldState = c := by
    unfold EditRec.setOldState at hset
    revert hset
    cases hclone : cloneProps properties h with
    | error err => intro hset; simp at hset
    | ok pr =>
        obtain ⟨c, hh⟩ := pr
        intro hset
        have hset2 : Except.ok (ε := Unit) (({ e with oldState := c } : EditRec), hh) =
            .ok (e2, h2) := hset
        injection hset2 with hpair
        have he2 : e2 = { e with oldState := c } := (congrArg Prod.fst hpair).symm
        have hh2 : h2 = hh := (congrArg Prod.snd hpair).symm
        subst hh2
        exact ⟨c, rfl, by rw [he2]⟩
  obtain ⟨c, hclone, hold⟩ := hinv
  constructor
  · intro k v _
    rfl
  · intro g hg
    rw [hold] at hg
    have hne : g ≠ a := cloneProps_geom_fresh properties h c h2 hclone g hg a ha
    rw [resolveProp_ref, resolveProp_ref, lookup_update_ne h2 a g o hne]

theorem C9_snapshot_protection_witness :
    (∀ k v, (k, PropVal.prim v) ∈ c9Edit.oldState →
      resolveProp (Heap.update c9HeapAfter 0 (HeapObj.geom ⟨[(7, 7)]⟩)) (PropVal.prim v) =
        resolveProp c9HeapAfter (PropVal.prim v)) ∧
    (∀ g, ("geometry", PropVal.ref g) ∈ c9Edit.oldState →
      resolveProp (Heap.update c9HeapAfter 0 (HeapObj.geom ⟨[(7, 7)]⟩)) (PropVal.ref g) =
        resolveProp c9HeapAfter (PropVal.ref g)) :=
  C9_snapshot_protection { fid := "f", editType := .update } c9Props c9Heap
    c9Edit c9HeapAfter rfl 0 (by decide) (HeapObj.geom ⟨[(7, 7)]⟩)

end Daemon
